import Mathlib

/-!
# Verification of the PDF comment-extraction core

Shallow embedding of `src/PyMuPDF.py`: the drawing-number selector
(`get_drawing_number`), the color formatter (`rgb_to_hex`), the inline
color-name classification and annotation-row construction from `main`,
and the page-iteration driver.

Modelling conventions:
* Python floats (page coordinates, color channels) are modelled as `ℚ`.
* Python strings are Lean `String`s; `str.strip()` is modelled by
  `pyStrip` over the ASCII whitespace characters Python strips,
  `str.upper()` by `pyUpper` (ASCII case mapping; the only non-ASCII
  characters appearing here are Japanese, unchanged by both), and
  `'{:02x}'.format` by `fmt02x`.
* `int(x)` on a nonnegative float is truncation toward zero, `pyIntOfRat`.
* Python's `list.sort(key=..., reverse=True)` is a stable descending
  sort; for a total preorder every stable sort computes the same list,
  so it is modelled by the stable descending insertion sort `sortDesc`.
* `str(color_tuple)` (the repr fallback of `rgb_to_hex`) is modelled by
  `pyTupleStr`; the rendering of the numbers is a modelling choice, the
  surrounding `"(" ... ")"` shape is what the proofs rely on.
-/

/-- The ASCII whitespace characters removed by Python's `str.strip()`. -/
def isPyWhitespace (c : Char) : Bool :=
  c = ' ' || c = '\t' || c = '\n' || c = '\r' || c = '\x0b' || c = '\x0c'

/-- Strip leading and trailing whitespace from a character list. -/
def stripChars (l : List Char) : List Char :=
  ((l.dropWhile isPyWhitespace).reverse.dropWhile isPyWhitespace).reverse

/-- Model of Python `s.strip()`. -/
def pyStrip (s : String) : String :=
  String.mk (stripChars s.data)

/-- Model of Python `s.replace('\n', '')`: delete every newline character. -/
def removeNewlines (s : String) : String :=
  String.mk (s.data.filter (fun c => !(c = '\n')))

/-- ASCII uppercase mapping of a single character (Python `str.upper()`
restricted to the ASCII range; other characters are unchanged). -/
def charUpper (c : Char) : Char :=
  if 'a' ≤ c ∧ c ≤ 'z' then Char.ofNat (c.toNat - 32) else c

/-- Model of Python `s.upper()`. -/
def pyUpper (s : String) : String :=
  String.mk (s.data.map charUpper)

/-- Lowercase hexadecimal digit for `n < 16`. -/
def hexDigitChar (n : ℕ) : Char :=
  if n < 10 then Char.ofNat (48 + n) else Char.ofNat (87 + n)

/-- Hexadecimal digits of `n`, least significant first (fuel-structured so
that it reduces definitionally; fuel `n + 1` always suffices). -/
def hexDigitsRev : ℕ → ℕ → List Char
  | 0, _ => []
  | fuel + 1, n =>
    if n < 16 then [hexDigitChar n]
    else hexDigitChar (n % 16) :: hexDigitsRev fuel (n / 16)

/-- Lowercase hexadecimal digits of a natural number, most significant first. -/
def natToHexList (n : ℕ) : List Char :=
  (hexDigitsRev (n + 1) n).reverse

/-- Model of Python `'{:02x}'.format(n)`: lowercase hex, zero-padded to
width 2 (a negative argument renders with a leading minus sign). -/
def fmt02x (n : ℤ) : String :=
  if n < 0 then String.mk ('-' :: natToHexList n.natAbs)
  else String.mk (List.replicate (2 - (natToHexList n.toNat).length) '0' ++ natToHexList n.toNat)

/-- Model of Python `int(q)`: truncation toward zero. -/
def pyIntOfRat (q : ℚ) : ℤ :=
  if 0 ≤ q then ⌊q⌋ else ⌈q⌉

/-- Model of Python `str(t)` for the tuple of channel values (fallback
branch of `rgb_to_hex`): a parenthesised, comma-separated rendering. -/
def pyTupleStr (cs : List ℚ) : String :=
  "(" ++ String.intercalate ", " (cs.map (fun c => toString c)) ++ ")"

/-- Embedding of `rgb_to_hex` (src/PyMuPDF.py lines 15–30): `None` or an
empty tuple yields the "not specified" sentinel `"指定なし"`; a length-3
tuple yields `#rrggbb`; a length-1 (grayscale) tuple replicates its
channel; any other length falls back to `str(color_tuple)`. -/
def rgb_to_hex (color_tuple : Option (List ℚ)) : String :=
  match color_tuple with
  | none => "指定なし"
  | some cs =>
    if cs = [] then "指定なし"
    else
      let rgb := cs.map (fun c => pyIntOfRat (c * 255))
      match rgb with
      | [r, g, b] => "#" ++ fmt02x r ++ fmt02x g ++ fmt02x b
      | [v] => "#" ++ fmt02x v ++ fmt02x v ++ fmt02x v
      | _ => pyTupleStr cs

/-- Embedding of the inline color-name classification of `main`
(src/PyMuPDF.py lines 121–124): case-insensitive exact match of the hex
code against a fixed table, defaulting to `"その他"` (Other). -/
def classify_color (color_hex : String) : String :=
  if pyUpper color_hex = "#FF0000" then "赤"
  else if pyUpper color_hex = "#0000FF" then "青"
  else if pyUpper color_hex = "#000000" then "黒"
  else "その他"

/-! ## The drawing-number selector (`get_drawing_number`) -/

/-- A text block as reported by the PDF text-extraction collaborator:
`page.get_text("blocks", clip=...)` yields tuples
`(x0, y0, x1, y1, text, block_no, block_type)`; the geometry and the text
are what `get_drawing_number` consumes (`b[2]` is the right edge `x1`,
`b[3]` the bottom edge `y1`, `b[4]` the text). -/
structure Block where
  x0 : ℚ
  y0 : ℚ
  x1 : ℚ
  y1 : ℚ
  text : String
deriving DecidableEq

/-- The candidate dictionary built per surviving block
(src/PyMuPDF.py lines 55–59): stripped text, bottom edge, right edge. -/
structure Candidate where
  text : String
  y1 : ℚ
  x1 : ℚ
deriving DecidableEq

/-- The candidate `get_drawing_number` builds from a block. -/
def mkCand (b : Block) : Candidate :=
  { text := pyStrip b.text, y1 := b.y1, x1 := b.x1 }

/-- The candidate list: strip each block's text, drop empty ones,
keep input order (src/PyMuPDF.py lines 45–59). -/
def mkCandidates (blocks : List Block) : List Candidate :=
  blocks.filterMap (fun b => if pyStrip b.text = "" then none else some (mkCand b))

/-- Ordering: `a` sorts at-or-before `b` in the descending sort by the composite
key `(y1, x1)`: `a`'s key is lexicographically ≥ `b`'s. -/
def candGeP (a b : Candidate) : Prop :=
  b.y1 < a.y1 ∨ (b.y1 = a.y1 ∧ b.x1 ≤ a.x1)

instance (a b : Candidate) : Decidable (candGeP a b) := by
  unfold candGeP; infer_instance

/-- Boolean form of `candGeP`. -/
def candGe (a b : Candidate) : Bool :=
  decide (candGeP a b)

/-- Stable insertion step of the descending sort: `a` (originally before
every element of the sorted tail) goes before the first element whose key
is not below `a`'s, so equal keys keep their original order. -/
def insertDesc (a : Candidate) : List Candidate → List Candidate
  | [] => [a]
  | b :: rest => if candGe a b then a :: b :: rest else b :: insertDesc a rest

/-- Model of `candidates.sort(key=lambda x: (x["y1"], x["x1"]), reverse=True)`
(src/PyMuPDF.py line 67). Python's sort is stable; over the total preorder
`candGeP` every stable descending sort produces the same list, so the
stable descending insertion sort is an exact model. -/
def sortDesc : List Candidate → List Candidate
  | [] => []
  | a :: rest => insertDesc a (sortDesc rest)

/-- The sentinel returned when no usable text block exists. -/
def unreadable : String := "(読取不可)"

/-- Embedding of `get_drawing_number` (src/PyMuPDF.py lines 32–73), with
the rectangle clipping delegated to the collaborator: `blocks` is the
clipped block list. Returns the sentinel when no block or no candidate
survives; otherwise the first element of the descending sort, with
newlines removed. -/
def get_drawing_number (blocks : List Block) : String :=
  if blocks = [] then unreadable
  else
    match sortDesc (mkCandidates blocks) with
    | [] => unreadable
    | best :: _ => removeNewlines best.text

/-- The candidate `get_drawing_number` picks (`candidates[0]` after the
sort), when one exists. -/
def selectedCandidate (blocks : List Block) : Option Candidate :=
  (sortDesc (mkCandidates blocks)).head?

/-! ## Annotation rows and the page-iteration driver (`main`) -/

/-- A native annotation record as exposed by the PDF collaborator:
`annot.info.get("content")`, `annot.info.get("title", "")`,
`annot.info.get("modDate", "")` and `annot.colors.get("stroke")`, each
independently optional. -/
structure Annot where
  content : Option String
  title : Option String
  modDate : Option String
  stroke : Option (List ℚ)
deriving DecidableEq

/-- One row of the extracted table (the dictionary appended to
`extracted_data` in src/PyMuPDF.py lines 126–134). -/
structure Row where
  page : ℕ
  drawing_no : String
  comment : String
  author : String
  modDate : String
  color_name : String
  color_hex : String
deriving DecidableEq

/-- The row built from one annotation on page `pageIdx` (0-based), or
`none` when the loop `continue`s: `content = annot.info.get("content");
if not content: continue` skips exactly an absent or empty content string
(src/PyMuPDF.py lines 112–134). -/
def annotRow (pageIdx : ℕ) (drawing_no : String) (a : Annot) : Option Row :=
  match a.content with
  | none => none
  | some content =>
    if content = "" then none
    else
      let color_hex := rgb_to_hex a.stroke
      some {
        page := pageIdx + 1
        drawing_no := drawing_no
        comment := content
        author := a.title.getD ""
        modDate := a.modDate.getD ""
        color_name := classify_color color_hex
        color_hex := color_hex }

/-- One page's annotation processing: iterate the collaborator's records
in native order, appending a row per surviving annotation. -/
def normalizeAnnots (pageIdx : ℕ) (drawing_no : String) (annots : List Annot) : List Row :=
  annots.filterMap (annotRow pageIdx drawing_no)

/-- A page as the driver sees it: its dimensions, the text blocks the
collaborator returns for the bottom-right clip rectangle, and its
annotation records. -/
structure Page where
  width : ℚ
  height : ℚ
  blocks : List Block
  annots : List Annot

/-- The driver loop `for i, page in enumerate(doc)` from page index `k`
on: compute the page's drawing number once, then append that page's
rows (src/PyMuPDF.py lines 99–134). -/
def processFrom : ℕ → List Page → List Row
  | _, [] => []
  | k, p :: rest =>
    normalizeAnnots k (get_drawing_number p.blocks) p.annots ++ processFrom (k + 1) rest

/-- The whole document: pages processed in order, starting at index 0. -/
def processDoc (doc : List Page) : List Row :=
  processFrom 0 doc

/-! ## Well-formedness of hex codes -/

/-- A lowercase hexadecimal digit character. -/
def isLowerHexDigit (c : Char) : Bool :=
  decide (('0' ≤ c ∧ c ≤ '9') ∨ ('a' ≤ c ∧ c ≤ 'f'))

/-- A well-formed color code: `'#'` followed by exactly six lowercase
hexadecimal digits. -/
def isHexCode (s : String) : Bool :=
  decide (s.data.head? = some '#') && (s.data.tail.length == 6) &&
    s.data.tail.all isLowerHexDigit

/-! ## Rows: characterization and the driver -/

/-- The row a surviving annotation yields (used to state the
normalization claims): the comment is the content verbatim, author and
timestamp default to the empty string, colors via `rgb_to_hex` and
`classify_color`. -/
def rowOf (pageIdx : ℕ) (drawing_no : String) (a : Annot) : Row :=
  let color_hex := rgb_to_hex a.stroke
  { page := pageIdx + 1
    drawing_no := drawing_no
    comment := a.content.getD ""
    author := a.title.getD ""
    modDate := a.modDate.getD ""
    color_name := classify_color color_hex
    color_hex := color_hex }

/-! ## Basic evaluations -/

/-- Evaluation of `int(c * 255)` at the channel value `1.0`. -/
theorem pyIntOfRat_one_mul : pyIntOfRat ((1 : ℚ) * 255) = 255 := by
  norm_num [pyIntOfRat]

/-- Evaluation of `int(c * 255)` at the channel value `0.0`. -/
theorem pyIntOfRat_zero_mul : pyIntOfRat ((0 : ℚ) * 255) = 0 := by
  norm_num [pyIntOfRat]

/-- Concrete evaluation: pure red converts to `"#ff0000"`. -/
theorem rgb_to_hex_red : rgb_to_hex (some [1, 0, 0]) = "#ff0000" := by
  simp only [rgb_to_hex, List.map, pyIntOfRat_one_mul, pyIntOfRat_zero_mul]
  decide

/-- Concrete evaluation: grayscale black converts to `"#000000"`. -/
theorem rgb_to_hex_gray_zero : rgb_to_hex (some [0]) = "#000000" := by
  simp only [rgb_to_hex, List.map, pyIntOfRat_zero_mul]
  decide

example : rgb_to_hex none = "指定なし" := by decide
example : classify_color "#ff0000" = "赤" := by decide
example : classify_color "指定なし" = "その他" := by decide
example : pyStrip "  a b\n " = "a b" := by decide
example : removeNewlines "a\nb" = "ab" := by decide

example : get_drawing_number [] = unreadable := by decide
example : get_drawing_number [⟨0, 0, 10, 20, "A-101"⟩, ⟨0, 0, 30, 10, "B"⟩] = "A-101" := by decide
example : get_drawing_number [⟨0, 0, 10, 20, " \n "⟩] = unreadable := by decide

example :
    normalizeAnnots 0 "A-101" [⟨some "Fix wall", some "alice", some "D:2024", none⟩] =
      [⟨1, "A-101", "Fix wall", "alice", "D:2024", "その他", "指定なし"⟩] := by decide
example : normalizeAnnots 0 "A-101" [⟨some "", some "alice", none, none⟩] = [] := by decide
example : (normalizeAnnots 0 "A-101" [⟨some "  ", none, none, none⟩]).length = 1 := by decide

/-! ## Generic list lemmas -/

/-- The function `find?` only inspects the predicate on list members. -/
theorem find?_congr_mem {α} {p q : α → Bool} :
    ∀ {l : List α}, (∀ a ∈ l, p a = q a) → l.find? p = l.find? q := by
  intro l
  induction l with
  | nil => intro _; rfl
  | cons a t ih =>
    intro h
    have ha := h a (List.mem_cons_self a t)
    by_cases hp : p a = true
    · rw [List.find?_cons_of_pos _ hp, List.find?_cons_of_pos _ (ha ▸ hp)]
    · have hp' : ¬ q a = true := fun hq => hp (ha ▸ hq)
      rw [List.find?_cons_of_neg _ hp, List.find?_cons_of_neg _ hp',
        ih (fun b hb => h b (List.mem_cons_of_mem a hb))]

/-- A `filterMap` whose function is a guarded `some` is a `filter`-then-`map`. -/
theorem filterMap_guard {α β} {f : α → Option β} {p : α → Bool} {g : α → β}
    (hf : ∀ a, f a = if p a then some (g a) else none) :
    ∀ l : List α, l.filterMap f = (l.filter p).map g := by
  intro l
  induction l with
  | nil => rfl
  | cons a t ih =>
    rw [List.filterMap_cons, List.filter_cons]
    by_cases hp : p a = true
    · rw [hf a, if_pos hp, if_pos hp, List.map_cons, ih]
    · rw [hf a, if_neg hp, if_neg hp, ih]

/-! ## Order facts about the composite sort key -/

/-- Reflexivity of `candGeP`. -/
theorem candGeP_refl (a : Candidate) : candGeP a a :=
  Or.inr ⟨rfl, le_refl _⟩

/-- Transitivity of `candGeP`. -/
theorem candGeP_trans {a b c : Candidate} (h1 : candGeP a b) (h2 : candGeP b c) :
    candGeP a c := by
  rcases h1 with h1 | ⟨e1, x1⟩ <;> rcases h2 with h2 | ⟨e2, x2⟩
  · exact Or.inl (lt_trans h2 h1)
  · exact Or.inl (e2 ▸ h1)
  · exact Or.inl (e1 ▸ h2)
  · exact Or.inr ⟨e2.trans e1, le_trans x2 x1⟩

/-- Totality of `candGeP`. -/
theorem candGeP_total (a b : Candidate) : candGeP a b ∨ candGeP b a := by
  rcases lt_trichotomy b.y1 a.y1 with h | h | h
  · exact Or.inl (Or.inl h)
  · rcases le_total b.x1 a.x1 with hx | hx
    · exact Or.inl (Or.inr ⟨h, hx⟩)
    · exact Or.inr (Or.inr ⟨h.symm, hx⟩)
  · exact Or.inr (Or.inl h)

/-- Bool/Prop bridge for `candGe`. -/
theorem candGe_eq_true_iff {a b : Candidate} : candGe a b = true ↔ candGeP a b := by
  simp [candGe]

theorem candGe_self (a : Candidate) : candGe a a = true :=
  candGe_eq_true_iff.mpr (candGeP_refl a)

theorem candGe_trans {a b c : Candidate} (h1 : candGe a b = true) (h2 : candGe b c = true) :
    candGe a c = true :=
  candGe_eq_true_iff.mpr (candGeP_trans (candGe_eq_true_iff.mp h1) (candGe_eq_true_iff.mp h2))

theorem candGe_of_not_candGe {a b : Candidate} (h : ¬ candGe a b = true) :
    candGe b a = true := by
  rcases candGeP_total a b with hab | hba
  · exact absurd (candGe_eq_true_iff.mpr hab) h
  · exact candGe_eq_true_iff.mpr hba

/-! ## Structure of the descending sort -/

theorem insertDesc_ne_nil (a : Candidate) (l : List Candidate) : insertDesc a l ≠ [] := by
  cases l with
  | nil => simp [insertDesc]
  | cons b rest => unfold insertDesc; split <;> simp

theorem sortDesc_eq_nil_iff {l : List Candidate} : sortDesc l = [] ↔ l = [] := by
  cases l with
  | nil => simp [sortDesc]
  | cons a rest => simp [sortDesc, insertDesc_ne_nil]

theorem mem_insertDesc {x a : Candidate} {l : List Candidate} :
    x ∈ insertDesc a l ↔ x = a ∨ x ∈ l := by
  induction l with
  | nil => simp [insertDesc]
  | cons b rest ih =>
    unfold insertDesc
    split
    · simp
    · simp only [List.mem_cons, ih]
      tauto

theorem mem_sortDesc {x : Candidate} {l : List Candidate} : x ∈ sortDesc l ↔ x ∈ l := by
  induction l with
  | nil => simp [sortDesc]
  | cons a rest ih => simp [sortDesc, mem_insertDesc, ih]

/-- The head of the stable descending sort is the first element of the
input whose composite key is maximal: exactly the element `candidates[0]`
denotes after Python's stable `sort(..., reverse=True)`. -/
theorem head?_sortDesc : ∀ l : List Candidate,
    (sortDesc l).head? = l.find? (fun a => l.all (fun b => candGe a b)) := by
  intro l
  induction l with
  | nil => rfl
  | cons x t ih =>
    show (insertDesc x (sortDesc t)).head? = _
    by_cases hx : t.all (fun b => candGe x b) = true
    · have hall : (x :: t).all (fun b => candGe x b) = true := by
        rw [List.all_cons, candGe_self, Bool.true_and]; exact hx
      simp only [List.find?_cons, hall]
      cases hs : sortDesc t with
      | nil => rfl
      | cons h s =>
        have hh : h ∈ t := mem_sortDesc.mp (hs ▸ List.mem_cons_self h s)
        have hxh : candGe x h = true := List.all_eq_true.mp hx h hh
        simp [insertDesc, hxh]
    · obtain ⟨b0, hb0t, hb0⟩ : ∃ b ∈ t, ¬ candGe x b = true := by
        by_contra hcon
        push_neg at hcon
        exact hx (List.all_eq_true.mpr fun b hb => hcon b hb)
      have hxfull : (x :: t).all (fun b => candGe x b) = false := by
        rw [← Bool.not_eq_true]
        intro hcon
        exact hb0 (List.all_eq_true.mp hcon b0 (List.mem_cons_of_mem x hb0t))
      simp only [List.find?_cons, hxfull]
      have hcongr :
          t.find? (fun a => (x :: t).all (fun b => candGe a b)) =
            t.find? (fun a => t.all (fun b => candGe a b)) := by
        apply find?_congr_mem
        intro a _
        by_cases hPa : t.all (fun b => candGe a b) = true
        · have hax : candGe a x = true :=
            candGe_trans (List.all_eq_true.mp hPa b0 hb0t) (candGe_of_not_candGe hb0)
          rw [List.all_cons, hax, Bool.true_and, hPa]
        · have hPa' : t.all (fun b => candGe a b) = false := by
            rw [← Bool.not_eq_true]; exact hPa
          rw [List.all_cons, hPa', Bool.and_false]
      rw [hcongr, ← ih]
      have htne : t ≠ [] := fun he => absurd (he ▸ hb0t) (List.not_mem_nil b0)
      cases hs : sortDesc t with
      | nil => exact absurd (sortDesc_eq_nil_iff.mp hs) htne
      | cons h s =>
        have hhfind : t.find? (fun a => t.all (fun b => candGe a b)) = some h := by
          rw [← ih, hs]; rfl
        have hPh : t.all (fun b => candGe h b) = true := by
          simpa using List.find?_some hhfind
        have hxh : ¬ candGe x h = true := by
          intro hcon
          exact hb0 (candGe_trans hcon (List.all_eq_true.mp hPh b0 hb0t))
        simp [insertDesc, hxh, hs]

/-! ## Facts about the selector -/

theorem mem_mkCandidates {c : Candidate} {blocks : List Block} :
    c ∈ mkCandidates blocks ↔ ∃ b ∈ blocks, pyStrip b.text ≠ "" ∧ c = mkCand b := by
  constructor
  · intro hc
    obtain ⟨b, hb, hfb⟩ := List.mem_filterMap.mp hc
    by_cases h : pyStrip b.text = ""
    · rw [if_pos h] at hfb; cases hfb
    · rw [if_neg h] at hfb
      exact ⟨b, hb, h, (Option.some_inj.mp hfb).symm⟩
  · rintro ⟨b, hb, h, rfl⟩
    exact List.mem_filterMap.mpr ⟨b, hb, by rw [if_neg h]⟩

theorem mkCandidates_eq_nil_iff {blocks : List Block} :
    mkCandidates blocks = [] ↔ ∀ b ∈ blocks, pyStrip b.text = "" := by
  rw [mkCandidates, List.filterMap_eq_nil_iff]
  constructor
  · intro h b hb
    by_contra hne
    have hfb := h b hb
    rw [if_neg hne] at hfb; cases hfb
  · intro h b hb
    rw [if_pos (h b hb)]

/-- The candidate `select` picks is one of the candidates, and its
composite key is lexicographically maximal among all candidates. -/
theorem selectedCandidate_spec {blocks : List Block} {c : Candidate}
    (h : selectedCandidate blocks = some c) :
    c ∈ mkCandidates blocks ∧ ∀ b ∈ mkCandidates blocks, candGeP c b := by
  rw [selectedCandidate, head?_sortDesc] at h
  refine ⟨List.mem_of_find?_eq_some h, ?_⟩
  intro b hb
  have hall := List.find?_some h
  simp only [List.all_eq_true] at hall
  exact candGe_eq_true_iff.mp (hall b hb)

theorem selectedCandidate_isSome {blocks : List Block} (h : mkCandidates blocks ≠ []) :
    ∃ c, selectedCandidate blocks = some c := by
  rw [selectedCandidate]
  cases hs : sortDesc (mkCandidates blocks) with
  | nil => exact absurd (sortDesc_eq_nil_iff.mp hs) h
  | cons a s => exact ⟨a, rfl⟩

theorem gdn_none {blocks : List Block} (h : mkCandidates blocks = []) :
    get_drawing_number blocks = unreadable := by
  unfold get_drawing_number
  by_cases hb : blocks = []
  · rw [if_pos hb]
  · rw [if_neg hb, h]
    rfl

theorem gdn_selected {blocks : List Block} {c : Candidate}
    (h : selectedCandidate blocks = some c) :
    get_drawing_number blocks = removeNewlines c.text := by
  have hne : mkCandidates blocks ≠ [] := by
    intro hnil
    rw [selectedCandidate, sortDesc_eq_nil_iff.mpr hnil] at h
    cases h
  have hbne : blocks ≠ [] := by
    rintro rfl
    exact hne rfl
  unfold get_drawing_number
  rw [if_neg hbne]
  rw [selectedCandidate] at h
  cases hs : sortDesc (mkCandidates blocks) with
  | nil => rw [hs] at h; cases h
  | cons a s =>
    rw [hs] at h
    cases h
    rfl

/-! ## Claim theorems: the selector -/

/-- C2: whenever blocks `b1` and `b2` both survive the emptiness
filter and `b1`'s bottom edge is strictly greater than `b2`'s, the
selector picks some candidate, and that candidate is never the one built
from `b2` — its bottom edge is strictly greater than `b2`'s, whatever
the right-edge values are. -/
theorem C2_bottom_wins (blocks : List Block) (b1 b2 : Block)
    (h1 : b1 ∈ blocks) (ht1 : pyStrip b1.text ≠ "")
    (_h2 : b2 ∈ blocks) (_ht2 : pyStrip b2.text ≠ "")
    (hy : b2.y1 < b1.y1) :
    (∃ c, selectedCandidate blocks = some c) ∧
    ∀ c, selectedCandidate blocks = some c → b2.y1 < c.y1 ∧ c ≠ mkCand b2 := by
  have hne : mkCandidates blocks ≠ [] := by
    intro hnil
    exact ht1 (mkCandidates_eq_nil_iff.mp hnil b1 h1)
  refine ⟨selectedCandidate_isSome hne, ?_⟩
  intro c hc
  obtain ⟨hmem, hmax⟩ := selectedCandidate_spec hc
  have hb1 : candGeP c (mkCand b1) := hmax _ (mem_mkCandidates.mpr ⟨b1, h1, ht1, rfl⟩)
  have hy1 : b1.y1 ≤ c.y1 := by
    rcases hb1 with h | ⟨e, _⟩
    · exact le_of_lt h
    · exact le_of_eq e
  have hlt : b2.y1 < c.y1 := lt_of_lt_of_le hy hy1
  exact ⟨hlt, fun he => absurd (he ▸ hlt) (lt_irrefl _)⟩

/-- Witness for C2 at a two-block input: the lower block (bottom 20)
beats the much-farther-right but higher block (bottom 10). -/
theorem C2_witness :
    (10 : ℚ) < Candidate.y1 ⟨"A-101", 20, 10⟩ ∧
      (⟨"A-101", 20, 10⟩ : Candidate) ≠ mkCand ⟨0, 0, 30, 10, "B"⟩ :=
  (C2_bottom_wins [⟨0, 0, 10, 20, "A-101"⟩, ⟨0, 0, 30, 10, "B"⟩]
      ⟨0, 0, 10, 20, "A-101"⟩ ⟨0, 0, 30, 10, "B"⟩
      (by decide) (by decide) (by decide) (by decide) (by decide)).2
    ⟨"A-101", 20, 10⟩ (by decide)

/-- C3: among surviving blocks with equal bottom edges, the one with
the larger right edge is preferred: the selected candidate's composite
key is lexicographically strictly above `b2`'s, and the selected
candidate is never the one built from `b2`. -/
theorem C3_right_tiebreak (blocks : List Block) (b1 b2 : Block)
    (h1 : b1 ∈ blocks) (ht1 : pyStrip b1.text ≠ "")
    (_h2 : b2 ∈ blocks) (_ht2 : pyStrip b2.text ≠ "")
    (hy : b1.y1 = b2.y1) (hx : b2.x1 < b1.x1) :
    (∃ c, selectedCandidate blocks = some c) ∧
    ∀ c, selectedCandidate blocks = some c →
      (b2.y1 < c.y1 ∨ (b2.y1 = c.y1 ∧ b2.x1 < c.x1)) ∧ c ≠ mkCand b2 := by
  have hne : mkCandidates blocks ≠ [] := by
    intro hnil
    exact ht1 (mkCandidates_eq_nil_iff.mp hnil b1 h1)
  refine ⟨selectedCandidate_isSome hne, ?_⟩
  intro c hc
  obtain ⟨hmem, hmax⟩ := selectedCandidate_spec hc
  have hb1 : candGeP c (mkCand b1) := hmax _ (mem_mkCandidates.mpr ⟨b1, h1, ht1, rfl⟩)
  have hkey : b2.y1 < c.y1 ∨ (b2.y1 = c.y1 ∧ b2.x1 < c.x1) := by
    rcases hb1 with h | ⟨e, hx1⟩
    · exact Or.inl (hy ▸ h)
    · exact Or.inr ⟨hy ▸ e, lt_of_lt_of_le hx hx1⟩
  refine ⟨hkey, ?_⟩
  rintro rfl
  rcases hkey with h | ⟨_, h⟩
  · exact absurd h (lt_irrefl _)
  · exact absurd h (lt_irrefl _)

/-- Witness for C3 at a two-block input with equal bottoms: the
farther-right block (right edge 30) wins over the one at 20. -/
theorem C3_witness :
    ((10 : ℚ) < Candidate.y1 ⟨"R", 10, 30⟩ ∨
      ((10 : ℚ) = Candidate.y1 ⟨"R", 10, 30⟩ ∧ (20 : ℚ) < Candidate.x1 ⟨"R", 10, 30⟩)) ∧
      (⟨"R", 10, 30⟩ : Candidate) ≠ mkCand ⟨0, 0, 20, 10, "L"⟩ :=
  (C3_right_tiebreak [⟨0, 0, 30, 10, "R"⟩, ⟨0, 0, 20, 10, "L"⟩]
      ⟨0, 0, 30, 10, "R"⟩ ⟨0, 0, 20, 10, "L"⟩
      (by decide) (by decide) (by decide) (by decide) (by decide) (by decide)).2
    ⟨"R", 10, 30⟩ (by decide)

/-- C4, counterexample: a block whose text is literally the sentinel
string survives the filter (its trimmed text is non-empty), yet the
returned string equals the sentinel — refuting "for every sequence
containing at least one block with non-empty trimmed text it returns
that block set's winning text, never the sentinel" read as a statement
about the returned string value. -/
theorem C4_counterexample :
    pyStrip (Block.text ⟨0, 0, 1, 1, "(読取不可)"⟩) ≠ "" ∧
    get_drawing_number [⟨0, 0, 1, 1, "(読取不可)"⟩] = unreadable := by
  constructor
  · decide
  · decide

/-- C4, amended: the selector returns the sentinel when no candidate
survives (equivalently, every block's text trims to empty — including
the empty sequence); when a candidate survives, it returns the winning
surviving block's trimmed text with newlines removed (a string that can
coincide with the sentinel only if that text itself reads like it). -/
theorem C4_amended_sentinel (blocks : List Block) :
    (get_drawing_number blocks = unreadable ∧ ∀ b ∈ blocks, pyStrip b.text = "") ∨
    (∃ c, selectedCandidate blocks = some c ∧
      get_drawing_number blocks = removeNewlines c.text ∧
      ∃ b ∈ blocks, pyStrip b.text ≠ "" ∧ c = mkCand b) := by
  by_cases h : mkCandidates blocks = []
  · exact Or.inl ⟨gdn_none h, mkCandidates_eq_nil_iff.mp h⟩
  · obtain ⟨c, hc⟩ := selectedCandidate_isSome h
    exact Or.inr ⟨c, hc, gdn_selected hc, mem_mkCandidates.mp (selectedCandidate_spec hc).1⟩

/-- Witness for C4 (amended) at the empty block sequence. -/
theorem C4_witness : get_drawing_number [] = unreadable := by
  rcases C4_amended_sentinel [] with ⟨h, _⟩ | ⟨c, hc, _⟩
  · exact h
  · exact Option.noConfusion ((rfl : selectedCandidate ([] : List Block) = none).symm.trans hc)

/-- C5: when the selector picks a winning candidate, the candidate's
text is some block's whitespace-trimmed text, the returned string is that
text with every newline character deleted, and the returned string
contains no newline character. -/
theorem C5_newlines_removed (blocks : List Block) (c : Candidate)
    (hc : selectedCandidate blocks = some c) :
    (∃ b ∈ blocks, c.text = pyStrip b.text) ∧
    get_drawing_number blocks = removeNewlines c.text ∧
    ∀ ch ∈ (get_drawing_number blocks).data, ch ≠ '\n' := by
  obtain ⟨hmem, -⟩ := selectedCandidate_spec hc
  obtain ⟨b, hb, -, rfl⟩ := mem_mkCandidates.mp hmem
  refine ⟨⟨b, hb, rfl⟩, gdn_selected hc, ?_⟩
  rw [gdn_selected hc]
  intro ch hch
  have hchf : ch ∈ (mkCand b).text.data.filter (fun c => !(c = '\n')) := hch
  have := List.of_mem_filter hchf
  simpa using this

/-- Witness for C5: a block whose stripped text still contains an inner
newline; the returned string is the concatenation with it removed. -/
theorem C5_witness :
    get_drawing_number [(⟨0, 0, 5, 5, " A\nB "⟩ : Block)] =
      removeNewlines (Candidate.text ⟨"A\nB", 5, 5⟩) :=
  (C5_newlines_removed [⟨0, 0, 5, 5, " A\nB "⟩] ⟨"A\nB", 5, 5⟩ (by decide)).2.1

/-- C10: the candidate the selector picks is exactly the first
element, in input enumeration order, of the candidate list whose
composite key is maximal — so when several candidates tie on the maximal
`(bottom, right)` key, the earliest such block's text is returned, and
selection is a deterministic function of the input. -/
theorem C10_first_of_max (blocks : List Block) :
    selectedCandidate blocks =
      (mkCandidates blocks).find?
        (fun a => (mkCandidates blocks).all (fun b => candGe a b)) ∧
    ∀ c, selectedCandidate blocks = some c →
      get_drawing_number blocks = removeNewlines c.text :=
  ⟨head?_sortDesc _, fun _ hc => gdn_selected hc⟩

/-- Witness for C10 at an exact two-way tie: both blocks share the key
`(20, 10)`; the earlier block's text `"first"` is returned. -/
theorem C10_witness :
    get_drawing_number [(⟨0, 0, 10, 20, "first"⟩ : Block), ⟨0, 0, 10, 20, "second"⟩] =
      removeNewlines (Candidate.text ⟨"first", 20, 10⟩) :=
  (C10_first_of_max [⟨0, 0, 10, 20, "first"⟩, ⟨0, 0, 10, 20, "second"⟩]).2
    ⟨"first", 20, 10⟩ (by decide)

/-! ## Hex well-formedness lemmas -/

theorem hexDigitChar_isLower : ∀ m, m < 16 → isLowerHexDigit (hexDigitChar m) = true := by
  decide

theorem hexDigitsRev_small {fuel n : ℕ} (h : n < 16) :
    hexDigitsRev (fuel + 1) n = [hexDigitChar n] := by
  unfold hexDigitsRev
  rw [if_pos h]

theorem hexDigitsRev_two {fuel n : ℕ} (h16 : ¬ n < 16) (h256 : n < 256) :
    hexDigitsRev (fuel + 2) n = [hexDigitChar (n % 16), hexDigitChar (n / 16)] := by
  show hexDigitsRev ((fuel + 1) + 1) n = _
  unfold hexDigitsRev
  rw [if_neg h16, hexDigitsRev_small (by omega : n / 16 < 16)]

theorem natToHexList_byte {n : ℕ} (h : n < 256) :
    1 ≤ (natToHexList n).length ∧ (natToHexList n).length ≤ 2 ∧
    ∀ c ∈ natToHexList n, isLowerHexDigit c = true := by
  unfold natToHexList
  by_cases h16 : n < 16
  · rw [hexDigitsRev_small h16]
    refine ⟨by simp, by simp, ?_⟩
    intro c hc
    simp only [List.reverse_cons, List.reverse_nil, List.nil_append, List.mem_singleton] at hc
    subst hc
    exact hexDigitChar_isLower n h16
  · have hn : n + 1 = (n - 1) + 2 := by omega
    rw [hn, hexDigitsRev_two h16 h]
    refine ⟨by simp, by simp, ?_⟩
    intro c hc
    simp only [List.mem_reverse, List.mem_cons, List.mem_singleton, List.not_mem_nil,
      or_false] at hc
    rcases hc with rfl | rfl
    · exact hexDigitChar_isLower _ (by omega)
    · exact hexDigitChar_isLower _ (by omega)

/-- Formatting a byte value: exactly two lowercase hex digits. -/
theorem fmt02x_byte {k : ℤ} (h0 : 0 ≤ k) (h255 : k ≤ 255) :
    (fmt02x k).data.length = 2 ∧ ∀ c ∈ (fmt02x k).data, isLowerHexDigit c = true := by
  have hneg : ¬ k < 0 := not_lt.mpr h0
  unfold fmt02x
  rw [if_neg hneg]
  have hlt : k.toNat < 256 := by omega
  obtain ⟨hlen1, hlen2, hall⟩ := natToHexList_byte hlt
  constructor
  · show (List.replicate (2 - (natToHexList k.toNat).length) '0' ++ natToHexList k.toNat).length = 2
    rw [List.length_append, List.length_replicate]
    omega
  · intro c hc
    have hc' : c ∈ List.replicate (2 - (natToHexList k.toNat).length) '0' ++
        natToHexList k.toNat := hc
    rcases List.mem_append.mp hc' with hrep | hmem
    · rw [List.eq_of_mem_replicate hrep]
      decide
    · exact hall c hmem

/-- Converted channel values stay in the byte range. -/
theorem pyIntOfRat_channel {c : ℚ} (h0 : 0 ≤ c) (h1 : c ≤ 1) :
    0 ≤ pyIntOfRat (c * 255) ∧ pyIntOfRat (c * 255) ≤ 255 := by
  have hq0 : (0 : ℚ) ≤ c * 255 := by positivity
  rw [pyIntOfRat, if_pos hq0]
  constructor
  · exact Int.floor_nonneg.mpr hq0
  · have hub : c * 255 ≤ 255 := by nlinarith
    calc ⌊c * 255⌋ ≤ ⌊(255 : ℚ)⌋ := Int.floor_le_floor hub
      _ = 255 := by norm_num

/-- Assembling `'#'` with three two-digit fields gives a well-formed code. -/
theorem isHexCode_of_three {s1 s2 s3 : String}
    (h1 : s1.data.length = 2 ∧ ∀ c ∈ s1.data, isLowerHexDigit c = true)
    (h2 : s2.data.length = 2 ∧ ∀ c ∈ s2.data, isLowerHexDigit c = true)
    (h3 : s3.data.length = 2 ∧ ∀ c ∈ s3.data, isLowerHexDigit c = true) :
    isHexCode ("#" ++ s1 ++ s2 ++ s3) = true := by
  have hdata : ("#" ++ s1 ++ s2 ++ s3).data =
      '#' :: (s1.data ++ s2.data ++ s3.data) := by
    rw [String.data_append, String.data_append, String.data_append]
    rfl
  unfold isHexCode
  rw [hdata]
  simp only [List.head?_cons, List.tail_cons]
  rw [Bool.and_eq_true, Bool.and_eq_true]
  refine ⟨⟨by decide, ?_⟩, ?_⟩
  · rw [beq_iff_eq, List.length_append, List.length_append, h1.1, h2.1, h3.1]
  · rw [List.all_eq_true]
    intro c hc
    rcases List.mem_append.mp hc with hc' | hc3
    · rcases List.mem_append.mp hc' with hc1 | hc2
      · exact h1.2 c hc1
      · exact h2.2 c hc2
    · exact h3.2 c hc3

/-! ## Shape lemmas for `rgb_to_hex` -/

theorem rgb_to_hex_single (a : ℚ) :
    rgb_to_hex (some [a]) =
      "#" ++ fmt02x (pyIntOfRat (a * 255)) ++ fmt02x (pyIntOfRat (a * 255)) ++
        fmt02x (pyIntOfRat (a * 255)) := by
  simp [rgb_to_hex]

theorem rgb_to_hex_triple (a b c : ℚ) :
    rgb_to_hex (some [a, b, c]) =
      "#" ++ fmt02x (pyIntOfRat (a * 255)) ++ fmt02x (pyIntOfRat (b * 255)) ++
        fmt02x (pyIntOfRat (c * 255)) := by
  simp [rgb_to_hex]

theorem rgb_to_hex_fallback {cs : List ℚ} (hne : cs ≠ [])
    (h1 : cs.length ≠ 1) (h3 : cs.length ≠ 3) :
    rgb_to_hex (some cs) = pyTupleStr cs := by
  rcases cs with _ | ⟨a, _ | ⟨b, _ | ⟨c, _ | ⟨d, t⟩⟩⟩⟩
  · exact absurd rfl hne
  · exact absurd rfl h1
  · simp [rgb_to_hex]
  · exact absurd rfl h3
  · simp [rgb_to_hex]

theorem pyUpper_ne_of_paren {s : String} {r : List Char}
    (hr : (pyUpper s).data = '(' :: r) {t : String}
    (ht : t.data.head? ≠ some '(') : pyUpper s ≠ t := by
  intro he
  apply ht
  rw [← he, hr]
  rfl

theorem classify_color_other (s : String)
    (h1 : pyUpper s ≠ "#FF0000") (h2 : pyUpper s ≠ "#0000FF")
    (h3 : pyUpper s ≠ "#000000") :
    classify_color s = "その他" := by
  unfold classify_color
  rw [if_neg h1, if_neg h2, if_neg h3]

/-- The uppercased tuple-repr fallback still starts with `'('`. -/
theorem pyTupleStr_paren (cs : List ℚ) :
    ∃ r, (pyUpper (pyTupleStr cs)).data = '(' :: r := by
  have h1 : (pyTupleStr cs).data =
      '(' :: ((String.intercalate ", " (cs.map fun c => toString c)).data ++ [')']) := by
    unfold pyTupleStr
    rw [String.data_append, String.data_append]
    rfl
  refine ⟨((String.intercalate ", " (cs.map fun c => toString c)).data ++ [')']).map charUpper, ?_⟩
  show ((pyTupleStr cs).data).map charUpper = _
  rw [h1, List.map_cons, show charUpper '(' = '(' from by decide]

/-! ## Claim theorems: colors -/

/-- C6: `toHex [1,0,0] = "#ff0000"`, `toHex [0] = "#000000"`
(grayscale replication), and an absent or empty channel tuple maps to
the non-empty sentinel `"指定なし"`, which is not a well-formed hex
code and hence distinguishable from every real one. -/
theorem C6_toHex_examples :
    rgb_to_hex (some [1, 0, 0]) = "#ff0000" ∧
    rgb_to_hex (some [0]) = "#000000" ∧
    rgb_to_hex none = "指定なし" ∧
    rgb_to_hex (some []) = "指定なし" ∧
    rgb_to_hex none ≠ "" ∧
    isHexCode (rgb_to_hex none) = false :=
  ⟨rgb_to_hex_red, rgb_to_hex_gray_zero, rfl, by decide, by decide, by decide⟩

/-- C7: the color name is a case-insensitive function of the hex
string, matching the fixed table `#FF0000 → 赤 (Red)`,
`#0000FF → 青 (Blue)`, `#000000 → 黒 (Black)`; everything else —
including the "not specified" sentinel and the tuple-repr fallback —
yields `その他` (Other). -/
theorem C7_color_name :
    (∀ s t, pyUpper s = pyUpper t → classify_color s = classify_color t) ∧
    classify_color "#ff0000" = "赤" ∧ classify_color "#FF0000" = "赤" ∧
    classify_color "#0000ff" = "青" ∧ classify_color "#0000FF" = "青" ∧
    classify_color "#000000" = "黒" ∧
    classify_color (rgb_to_hex none) = "その他" ∧
    (∀ s, pyUpper s ≠ "#FF0000" → pyUpper s ≠ "#0000FF" → pyUpper s ≠ "#000000" →
      classify_color s = "その他") ∧
    (∀ cs : List ℚ, cs ≠ [] → cs.length ≠ 1 → cs.length ≠ 3 →
      classify_color (rgb_to_hex (some cs)) = "その他") := by
  refine ⟨?_, by decide, by decide, by decide, by decide, by decide, by decide,
    classify_color_other, ?_⟩
  · intro s t h
    unfold classify_color
    rw [h]
  · intro cs hne h1 h3
    rw [rgb_to_hex_fallback hne h1 h3]
    obtain ⟨r, hr⟩ := pyTupleStr_paren cs
    exact classify_color_other _ (pyUpper_ne_of_paren hr (by decide))
      (pyUpper_ne_of_paren hr (by decide)) (pyUpper_ne_of_paren hr (by decide))

/-- Witness for C7: case-insensitivity at two concrete spellings, and a
length-2 tuple classified as Other. -/
theorem C7_witness :
    classify_color "#fF0000" = classify_color "#Ff0000" ∧
    classify_color (rgb_to_hex (some [0, 0])) = "その他" :=
  ⟨C7_color_name.1 "#fF0000" "#Ff0000" (by decide),
    C7_color_name.2.2.2.2.2.2.2.2 [0, 0] (by decide) (by decide) (by decide)⟩

/-- C9: on any channel tuple of length 1 or 3 with all values in
`[0, 1]`, `rgb_to_hex` produces a well-formed code: `'#'` followed by
exactly six lowercase hexadecimal digits (each converted channel lies in
`[0, 255]`). Totality of the Lean model is intrinsic; well-formedness is
the substantive content of "never raises". -/
theorem C9_toHex_wellformed (cs : List ℚ)
    (hlen : cs.length = 1 ∨ cs.length = 3)
    (hin : ∀ c ∈ cs, 0 ≤ c ∧ c ≤ 1) :
    isHexCode (rgb_to_hex (some cs)) = true := by
  rcases hlen with h1 | h3
  · obtain ⟨a, rfl⟩ := List.length_eq_one.mp h1
    obtain ⟨ha0, ha1⟩ := hin a (by simp)
    obtain ⟨hlo, hhi⟩ := pyIntOfRat_channel ha0 ha1
    rw [rgb_to_hex_single]
    exact isHexCode_of_three (fmt02x_byte hlo hhi) (fmt02x_byte hlo hhi)
      (fmt02x_byte hlo hhi)
  · obtain ⟨a, b, c, rfl⟩ := List.length_eq_three.mp h3
    obtain ⟨ha0, ha1⟩ := hin a (by simp)
    obtain ⟨hb0, hb1⟩ := hin b (by simp)
    obtain ⟨hc0, hc1⟩ := hin c (by simp)
    obtain ⟨halo, hahi⟩ := pyIntOfRat_channel ha0 ha1
    obtain ⟨hblo, hbhi⟩ := pyIntOfRat_channel hb0 hb1
    obtain ⟨hclo, hchi⟩ := pyIntOfRat_channel hc0 hc1
    rw [rgb_to_hex_triple]
    exact isHexCode_of_three (fmt02x_byte halo hahi) (fmt02x_byte hblo hbhi)
      (fmt02x_byte hclo hchi)

/-- Witness for C9 at the tuple `[1, 0, 0]`. -/
theorem C9_witness :
    isHexCode (rgb_to_hex (some [1, 0, 0])) = true :=
  C9_toHex_wellformed [1, 0, 0] (Or.inr rfl)
    (by intro c hc; fin_cases hc <;> norm_num)

/-! ## Row lemmas and driver claims -/

/-- The guard: `annotRow` emits exactly when the content, defaulted to `""`, is
non-empty — i.e. the content is present and not the empty string. -/
theorem annotRow_eq_guard (pageIdx : ℕ) (dn : String) (a : Annot) :
    annotRow pageIdx dn a =
      if a.content.getD "" = "" then none else some (rowOf pageIdx dn a) := by
  cases hc : a.content with
  | none => simp [annotRow, hc]
  | some content =>
    by_cases he : content = ""
    · simp [annotRow, rowOf, hc, he]
    · simp [annotRow, rowOf, hc, he]

theorem mem_normalizeAnnots {r : Row} {i : ℕ} {dn : String} {annots : List Annot}
    (h : r ∈ normalizeAnnots i dn annots) : r.page = i + 1 ∧ r.drawing_no = dn := by
  obtain ⟨a, ha, hfa⟩ := List.mem_filterMap.mp h
  rw [annotRow_eq_guard] at hfa
  by_cases hg : a.content.getD "" = ""
  · rw [if_pos hg] at hfa; cases hfa
  · rw [if_neg hg] at hfa
    obtain rfl := Option.some_inj.mp hfa
    exact ⟨rfl, rfl⟩

theorem mem_processFrom {r : Row} : ∀ {k : ℕ} {doc : List Page},
    r ∈ processFrom k doc →
    ∃ j p, doc[j]? = some p ∧ r.page = k + j + 1 ∧
      r.drawing_no = get_drawing_number p.blocks := by
  intro k doc
  induction doc generalizing k with
  | nil => intro h; cases h
  | cons p rest ih =>
    intro h
    rw [processFrom] at h
    rcases List.mem_append.mp h with h1 | h2
    · obtain ⟨hp, hdn⟩ := mem_normalizeAnnots h1
      exact ⟨0, p, by simp, by omega, hdn⟩
    · obtain ⟨j, q, hq, hpage, hdn⟩ := ih h2
      exact ⟨j + 1, q, by simpa using hq, by omega, hdn⟩

theorem processFrom_page_ge {r : Row} {k : ℕ} {doc : List Page}
    (h : r ∈ processFrom k doc) : k + 1 ≤ r.page := by
  obtain ⟨j, p, _, hpage, _⟩ := mem_processFrom h
  omega

theorem pairwise_page_const {l : List Row} {m : ℕ} (h : ∀ r ∈ l, r.page = m) :
    l.Pairwise (fun r s => r.page ≤ s.page) := by
  induction l with
  | nil => exact List.Pairwise.nil
  | cons a t ih =>
    refine List.Pairwise.cons ?_ (ih fun r hr => h r (List.mem_cons_of_mem a hr))
    intro b hb
    rw [h a (List.mem_cons_self a t), h b (List.mem_cons_of_mem a hb)]

theorem processFrom_pairwise : ∀ (k : ℕ) (doc : List Page),
    (processFrom k doc).Pairwise (fun r s => r.page ≤ s.page) := by
  intro k doc
  induction doc generalizing k with
  | nil => exact List.Pairwise.nil
  | cons p rest ih =>
    rw [processFrom, List.pairwise_append]
    refine ⟨?_, ih (k + 1), ?_⟩
    · apply pairwise_page_const
      intro r hr
      exact (mem_normalizeAnnots hr).1
    · intro r hr s hs
      have h1 := (mem_normalizeAnnots hr).1
      have h2 := processFrom_page_ge hs
      omega

theorem processFrom_filter : ∀ (k : ℕ) (doc : List Page) (i : ℕ) (p : Page),
    doc[i]? = some p →
    (processFrom k doc).filter (fun r => r.page == k + i + 1) =
      normalizeAnnots (k + i) (get_drawing_number p.blocks) p.annots := by
  intro k doc
  induction doc generalizing k with
  | nil => intro i p h; simp at h
  | cons q rest ih =>
    intro i p h
    rw [processFrom, List.filter_append]
    cases i with
    | zero =>
      obtain rfl : q = p := by simpa using h
      have hchunk : (normalizeAnnots k (get_drawing_number q.blocks) q.annots).filter
          (fun r => r.page == k + 0 + 1) =
          normalizeAnnots k (get_drawing_number q.blocks) q.annots := by
        apply List.filter_eq_self.mpr
        intro r hr
        have hp := (mem_normalizeAnnots hr).1
        simp [hp]
      have hrest : (processFrom (k + 1) rest).filter (fun r => r.page == k + 0 + 1) = [] := by
        apply List.filter_eq_nil_iff.mpr
        intro r hr
        have := processFrom_page_ge hr
        simp only [beq_iff_eq]
        omega
      rw [hchunk, hrest, List.append_nil, Nat.add_zero]
    | succ j =>
      rw [List.getElem?_cons_succ] at h
      have hchunk : (normalizeAnnots k (get_drawing_number q.blocks) q.annots).filter
          (fun r => r.page == k + (j + 1) + 1) = [] := by
        apply List.filter_eq_nil_iff.mpr
        intro r hr
        have := (mem_normalizeAnnots hr).1
        simp only [beq_iff_eq]
        omega
      rw [hchunk, List.nil_append,
        show k + (j + 1) + 1 = (k + 1) + j + 1 from by omega,
        show k + (j + 1) = (k + 1) + j from by omega]
      exact ih (k + 1) j p h

/-! ## Claim theorems: rows and the driver -/

/-- C1, counterexample: an annotation whose content is the
whitespace-only string `" "` does produce a row (the claim says it
produces none): `" "` is truthy in the guard `if not content`. -/
theorem C1_counterexample :
    (normalizeAnnots 0 "D-1" [⟨some " ", none, none, none⟩]).length = 1 := by
  decide

/-- C1, amended: normalize emits one row per annotation whose
content is present and not the empty string — whitespace-only content
does survive — and the emitted rows are those annotations' rows in
their original relative order. -/
theorem C1_amended (pageIdx : ℕ) (dn : String) (annots : List Annot) :
    normalizeAnnots pageIdx dn annots =
      (annots.filter (fun a => !(a.content.getD "" = ""))).map (rowOf pageIdx dn) := by
  unfold normalizeAnnots
  apply filterMap_guard
  intro a
  rw [annotRow_eq_guard]
  by_cases h : a.content.getD "" = ""
  · simp [h]
  · simp [h]

/-- C8: every extracted row's page stamp is a valid 1-based page
index whose page supplies exactly that row's drawing number; rows are
listed in page order; and the rows carrying page stamp `i + 1` are
exactly page `i`'s rows, in the collaborator's native annotation
order. -/
theorem C8_driver (doc : List Page) :
    (∀ r ∈ processDoc doc, 1 ≤ r.page ∧ r.page ≤ doc.length ∧
      ∃ p, doc[r.page - 1]? = some p ∧ r.drawing_no = get_drawing_number p.blocks) ∧
    (processDoc doc).Pairwise (fun r s => r.page ≤ s.page) ∧
    ∀ (i : ℕ) (p : Page), doc[i]? = some p →
      (processDoc doc).filter (fun r => r.page == i + 1) =
        normalizeAnnots i (get_drawing_number p.blocks) p.annots := by
  refine ⟨?_, processFrom_pairwise 0 doc, ?_⟩
  · intro r hr
    obtain ⟨j, p, hp, hpage, hdn⟩ := mem_processFrom hr
    have hlen : j < doc.length := by
      by_contra hge
      rw [List.getElem?_eq_none (by omega)] at hp
      cases hp
    refine ⟨by omega, by omega, p, ?_, hdn⟩
    rw [show r.page - 1 = j from by omega]
    exact hp
  · intro i p hp
    have hfil := processFrom_filter 0 doc i p hp
    rw [show 0 + i + 1 = i + 1 from by omega, show 0 + i = i from by omega] at hfil
    exact hfil

/-- Witness for C8 on a concrete two-page document: the rows stamped
page 2 are exactly page 2's normalized rows. -/
theorem C8_witness :
    (processDoc
        [⟨100, 100, [⟨60, 90, 90, 95, "A-101"⟩],
            [⟨some "Fix wall", some "alice", none, some [1, 0, 0]⟩]⟩,
          ⟨100, 100, [], [⟨some "Check door", none, none, none⟩]⟩]).filter
        (fun r => r.page == 2) =
      normalizeAnnots 1 (get_drawing_number ([] : List Block))
        [⟨some "Check door", none, none, none⟩] :=
  (C8_driver _).2.2 1 _ rfl
